import Mathlib

/-!
Verification of the NovaMart analytics Metrics Engine.

This file gives a shallow embedding, in Lean 4, of the computational core of
the repository (the KPI aggregation, confusion-matrix and ROC evaluation,
funnel transition analysis, geographic opportunity scoring, and the
region/quarter aggregation), and proves or refutes the specification's
claims about it.

Modelling conventions:
- pandas numeric cells are modelled as `Rat` (the repository's arithmetic is
  exact on the inputs the claims quantify over; float rounding is not at
  issue in any claim);
- a DataFrame with a fixed set of possibly-absent columns is modelled as a
  structure of `Option (List Rat)` fields: `none` models an absent column,
  `some xs` a present column with cell list `xs`;
- a Python `KeyError` / `ValueError` is modelled as `Except.error` with a
  short tag string;
- an in-place mutation of a borrowed DataFrame is modelled by returning the
  post-call frame alongside the computed result (state passing).
-/

namespace NovaMart

/-! ## KPI aggregation (`src/visualizations/utils.py`, `calculate_kpis`) -/

/-- Campaign DataFrame: the five columns `calculate_kpis` refers to, each
possibly absent.  `none` models an absent column. -/
structure CampaignFrame where
  revenue : Option (List Rat)
  conversions : Option (List Rat)
  spend : Option (List Rat)
  clicks : Option (List Rat)
  ctr : Option (List Rat)
deriving DecidableEq

/-- Result record of `calculate_kpis`. -/
structure KPIs where
  total_revenue : Rat
  total_conversions : Rat
  total_spend : Rat
  roas : Rat
  avg_ctr : Rat
  avg_conversion_rate : Rat
deriving DecidableEq

/-- Mean of a pandas numeric Series (`Series.mean`).  The claims only use it
on present, non-empty columns; on an empty column pandas returns NaN, which
is outside this model (Rat's `x / 0 = 0` stands in for it and is never
relied on in any theorem). -/
def seriesMean (xs : List Rat) : Rat :=
  xs.sum / (xs.length : Rat)

/-- Embedding of `calculate_kpis` (utils.py lines 56-70).  The Python body
evaluates `df['revenue'].sum()`, `df['conversions'].sum()` and
`df['spend'].sum()` unconditionally — a missing column raises `KeyError`
at that access, in source order — while `ctr` and `clicks` are guarded by
`'ctr' in df.columns` / `'clicks' in df.columns` checks. -/
def calculate_kpis (df : CampaignFrame) : Except String KPIs :=
  match df.revenue with
  | none => .error "KeyError: revenue"
  | some revenue =>
    match df.conversions with
    | none => .error "KeyError: conversions"
    | some conversions =>
      match df.spend with
      | none => .error "KeyError: spend"
      | some spend =>
        let total_revenue := revenue.sum
        let total_conversions := conversions.sum
        let total_spend := spend.sum
        .ok {
          total_revenue := total_revenue
          total_conversions := total_conversions
          total_spend := total_spend
          roas := if 0 < total_spend then total_revenue / total_spend else 0
          avg_ctr :=
            match df.ctr with
            | some xs => seriesMean xs
            | none => 0
          avg_conversion_rate :=
            match df.clicks with
            | some xs =>
              if 0 < xs.sum then total_conversions / xs.sum * 100 else 0
            | none => 0 }

/-- KPI scalars of `render_executive_overview` (app.py lines 75-78): unlike
`calculate_kpis`, every column access is guarded inline, with `revenue` and
`conversions` defaulting to 0 and `spend` defaulting to 1 when the column
is absent. -/
structure ExecKPIs where
  total_revenue : Rat
  total_conversions : Rat
  spend : Rat
  roas : Rat
deriving DecidableEq

/-- Embedding of the inline KPI computation in `render_executive_overview`
(app.py lines 75-78). -/
def render_executive_overview_kpis (df : CampaignFrame) : ExecKPIs :=
  let total_revenue := match df.revenue with | some xs => xs.sum | none => 0
  let total_conversions := match df.conversions with | some xs => xs.sum | none => 0
  let spend := match df.spend with | some xs => xs.sum | none => 1
  { total_revenue := total_revenue
    total_conversions := total_conversions
    spend := spend
    roas := if 0 < spend then total_revenue / spend else 0 }

/-! ## Confusion-matrix evaluation
(`src/visualizations/utils.py`, `calculate_confusion_matrix`) -/

/-- Ascending list of the distinct values of `xs` — the label set
`numpy.unique` computes for `sklearn.metrics.confusion_matrix` when no
explicit `labels` argument is given. -/
def sortedUnique (xs : List Int) : List Int :=
  List.insertionSort (· ≤ ·) xs.dedup

/-- Embedding of `sklearn.metrics.confusion_matrix(y_true, y_pred)`: an
n x n table over the n distinct values observed in either sequence (sorted
ascending), entry (i, j) counting samples with true label `labels[i]` and
predicted label `labels[j]`.  Differing lengths raise a `ValueError`
("inconsistent numbers of samples"); nothing restricts values to {0,1}. -/
def confusion_matrix (y_true y_pred : List Int) : Except String (List (List Nat)) :=
  if y_true.length ≠ y_pred.length then
    .error "ValueError: inconsistent numbers of samples"
  else
    let labels := sortedUnique (y_true ++ y_pred)
    let pairs := y_true.zip y_pred
    .ok (labels.map (fun a => labels.map (fun p => pairs.count (a, p))))

/-- Result record of `calculate_confusion_matrix`. -/
structure CMMetrics where
  tn : Nat
  fp : Nat
  fn : Nat
  tp : Nat
  sensitivity : Rat
  specificity : Rat
  precision : Rat
  accuracy : Rat
deriving DecidableEq

/-- Embedding of `calculate_confusion_matrix` (utils.py lines 73-84).  The
Python body runs `tn, fp, fn, tp = cm.ravel()`: a 4-way unpack of the
flattened table, which raises a `ValueError` whenever the table is not
2 x 2.  `sensitivity`, `specificity` and `precision` are guarded against a
zero denominator; `accuracy` is not (its denominator is the sample count,
which is positive whenever the unpack succeeded). -/
def calculate_confusion_matrix (y_true y_pred : List Int) : Except String CMMetrics :=
  match confusion_matrix y_true y_pred with
  | .error e => .error e
  | .ok cm =>
    match cm.flatten with
    | [tn, fp, fn, tp] =>
      .ok { tn := tn, fp := fp, fn := fn, tp := tp
            sensitivity := if 0 < tp + fn then (tp : Rat) / ((tp + fn : Nat) : Rat) else 0
            specificity := if 0 < tn + fp then (tn : Rat) / ((tn + fp : Nat) : Rat) else 0
            precision := if 0 < tp + fp then (tp : Rat) / ((tp + fp : Nat) : Rat) else 0
            accuracy := ((tp + tn : Nat) : Rat) / ((tp + tn + fp + fn : Nat) : Rat) }
    | _ => .error "ValueError: unpack"

/-! ## Funnel transition analysis (`src/pages/attribution_funnel.py`) -/

/-- One row of the funnel metrics table built in `attribution_funnel.render`
(numeric values, before the string formatting applied for display). -/
structure FunnelTransition where
  conversion_rate : Rat
  drop_off : Int
  remaining : Int
deriving DecidableEq

/-- Embedding of the transition loop in `attribution_funnel.render` (lines
58-71): for each adjacent pair of stages (the frame having already been
put in canonical stage order by the preceding `sort_values`), computes the
conversion rate (guarded against a non-positive current-stage count), the
signed drop-off, and the remaining visitors.  `visitors` is the
stage-ordered visitor-count column; `zip visitors visitors.tail` is the
list of adjacent pairs `range(len(df) - 1)` iterates over. -/
def funnel_metrics (visitors : List Int) : List FunnelTransition :=
  (visitors.zip visitors.tail).map (fun p =>
    { conversion_rate := if (0 : Int) < p.1 then (p.2 : Rat) / (p.1 : Rat) * 100 else 0
      drop_off := p.1 - p.2
      remaining := p.2 })

/-! ## Geographic opportunity scoring (`src/pages/geographic_analysis.py`) -/

/-- One row of the geographic dataset, with the fields the growth-analysis
tab reads. -/
structure GeoRecord where
  state : String
  revenue : Rat
  customers : Rat
  market_penetration : Rat
  satisfaction : Rat
deriving DecidableEq

/-- The per-state opportunity score of `geographic_analysis.render` (lines
125-131), given the maximum customer count of the collection. -/
def opportunity_score (maxCustomers : Rat) (r : GeoRecord) : Rat :=
  (100 - r.market_penetration) * (0.4 : Rat) +
    r.satisfaction * (0.4 : Rat) +
    (r.customers / maxCustomers * 100) * (0.2 : Rat)

/-- Embedding of the growth-analysis computation (geographic_analysis.py
lines 120-131): score each record against `max(customers)` and sort by
score ascending.  On an empty collection pandas' `max()` yields NaN, but
the column-wise arithmetic then runs over zero rows, so the result is an
empty table and no error is raised; the `match` mirrors that: with no
rows there is nothing to score. -/
def growth_analysis (records : List GeoRecord) : List (GeoRecord × Rat) :=
  match (records.map GeoRecord.customers).max? with
  | none => []
  | some maxCustomers =>
    List.insertionSort (fun a b => a.2 ≤ b.2)
      (records.map (fun r => (r, opportunity_score maxCustomers r)))

instance : IsTotal (GeoRecord × Rat) (fun a b => a.2 ≤ b.2) :=
  ⟨fun a b => le_total a.2 b.2⟩

instance : IsTrans (GeoRecord × Rat) (fun a b => a.2 ≤ b.2) :=
  ⟨fun _ _ _ hab hbc => le_trans hab hbc⟩

/-! ## Region/quarter aggregation
(`src/visualizations/utils.py`, `aggregate_by_region_quarter`) -/

/-- A calendar date, as held (already parsed) by the `date` column of the
campaign frame.  `pd.to_datetime` on an already-datetime column is the
identity, so the date parsing step is not re-modelled. -/
structure Date where
  year : Int
  month : Nat
  day : Nat
deriving DecidableEq

/-- `pandas.Timestamp.quarter`: 1 for Jan-Mar, ..., 4 for Oct-Dec. -/
def Date.quarter (d : Date) : Nat :=
  (d.month - 1) / 3 + 1

/-- The campaign frame as seen by `aggregate_by_region_quarter`: the three
columns it reads, plus the two derived columns it writes into the borrowed
frame (absent until the call writes them). -/
structure RegionFrame where
  region : List String
  date : List Date
  revenue : List Rat
  quarter : Option (List Nat)
  year : Option (List Int)
deriving DecidableEq

/-- Lexicographic order on (region, quarter, year) group keys — the
ascending key order `pandas.groupby` sorts its result by. -/
def keyLe (a b : String × Nat × Int) : Prop :=
  a.1 < b.1 ∨ (a.1 = b.1 ∧ (a.2.1 < b.2.1 ∨ (a.2.1 = b.2.1 ∧ a.2.2 ≤ b.2.2)))

instance : DecidableRel keyLe := fun a b => by
  unfold keyLe; infer_instance

/-- Embedding of `aggregate_by_region_quarter` (utils.py lines 21-26).  The
Python body mutates the borrowed frame in place — `df['quarter'] = ...`
and `df['year'] = ...` add two derived columns — before grouping; the
first component of the result is the caller's frame after the call, the
second the grouped revenue sums keyed by (region, quarter, year) in
ascending key order. -/
def aggregate_by_region_quarter (df : RegionFrame) :
    RegionFrame × List ((String × Nat × Int) × Rat) :=
  let quarters := df.date.map Date.quarter
  let years := df.date.map Date.year
  let post : RegionFrame := { df with quarter := some quarters, year := some years }
  let rows := (df.region.zip (quarters.zip years)).zip df.revenue
  let keys := List.insertionSort keyLe (rows.map Prod.fst).dedup
  (post, keys.map (fun k => (k, ((rows.filter (fun r => r.1 == k)).map Prod.snd).sum)))

/-! ## ROC curve and AUC
(`src/visualizations/utils.py`, `calculate_roc_curve`, delegating to
`sklearn.metrics.roc_curve` and `sklearn.metrics.auc`) -/

/-- Running partial sums (`numpy.cumsum`), from an accumulator. -/
def cumsumFrom (acc : Int) : List Int → List Int
  | [] => []
  | x :: xs => (acc + x) :: cumsumFrom (acc + x) xs

/-- Running partial sums (`numpy.cumsum`): element i is the sum of the
first i+1 entries. -/
def cumsum (xs : List Int) : List Int :=
  cumsumFrom 0 xs

/-- Fancy indexing `l[idxs]` of numpy, for in-range index lists. -/
def select {α : Type} (l : List α) (idxs : List Nat) : List α :=
  idxs.filterMap (fun i => l[i]?)

/-- The threshold indices of `sklearn.metrics._binary_clf_curve`: the
positions where the (descending-sorted) score changes, plus the final
position. -/
def threshold_idxs (ss : List Rat) : List Nat :=
  ((List.range (ss.length - 1)).filter
    (fun i => decide (ss.getD i 0 ≠ ss.getD (i + 1) 0))) ++ [ss.length - 1]

/-- Embedding of `sklearn.metrics._binary_clf_curve(y_true, y_score)` with
unit weights and `pos_label = 1`: sort the samples by score descending
(a stable sort; stability does not affect the counts, which only depend on
the multiset of samples sharing each score), then at each threshold index
take the cumulative count of positive samples (`tps`) and its complement
relative to the number of samples seen (`fps`).  Returns (fps, tps). -/
def binary_clf_fps_tps (samples : List (Int × Rat)) : List Int × List Int :=
  let sorted := List.insertionSort (fun a b => b.2 ≤ a.2) samples
  let ys := sorted.map (fun s : Int × Rat => if s.1 = 1 then (1 : Int) else 0)
  let ss := sorted.map Prod.snd
  let tIdxs := threshold_idxs ss
  let tps := select (cumsum ys) tIdxs
  let fps := (tIdxs.zip tps).map (fun p => (p.1 : Int) + 1 - p.2)
  (fps, tps)

instance : IsTotal (Int × Rat) (fun a b : Int × Rat => b.2 ≤ a.2) :=
  ⟨fun a b => (le_total b.2 a.2)⟩

instance : IsTrans (Int × Rat) (fun a b : Int × Rat => b.2 ≤ a.2) :=
  ⟨fun _ _ _ hab hbc => le_trans hbc hab⟩

/-- The mask entries `np.logical_or(np.diff(fps, 2), np.diff(tps, 2))` of
`roc_curve`'s `drop_intermediate` step: one Boolean per interior point,
true when the second difference of `fps` or of `tps` is nonzero there. -/
def interiorMask : List (Int × Int) → List Bool
  | a :: b :: c :: rest =>
    (decide (c.1 - 2 * b.1 + a.1 ≠ 0) || decide (c.2 - 2 * b.2 + a.2 ≠ 0)) ::
      interiorMask (b :: c :: rest)
  | _ => []

/-- Boolean-mask indexing `xs[mask]` of numpy. -/
def maskSelect {α : Type} : List α → List Bool → List α
  | x :: xs, b :: bs => if b then x :: maskSelect xs bs else maskSelect xs bs
  | _, _ => []

/-- The `drop_intermediate` step of `sklearn.metrics.roc_curve`, applied to
the zipped (fps, tps) sequence: when there are more than two points, keep
the first and last points and every interior point at which the second
difference of fps or tps is nonzero. -/
def drop_intermediate_pairs (zs : List (Int × Int)) : List (Int × Int) :=
  if zs.length ≤ 2 then zs
  else maskSelect zs (true :: (interiorMask zs ++ [true]))

/-- Embedding of `sklearn.metrics.roc_curve(y_true, y_score)` (fpr and tpr
components; the threshold array is not consumed by any claim).  After the
clf-curve counts and `drop_intermediate`, a (0, 0) origin is prepended and
both count sequences are normalised by their final entries.  When a final
entry is not positive, sklearn emits NaN arrays with a warning ("No
negative samples..." / "No positive samples..."); NaN output is modelled
as `none`. -/
def roc_curve (y_true : List Int) (y_score : List Rat) : Option (List Rat × List Rat) :=
  let ft := binary_clf_fps_tps (y_true.zip y_score)
  let zs := drop_intermediate_pairs (ft.1.zip ft.2)
  let fps := 0 :: zs.map Prod.fst
  let tps := 0 :: zs.map Prod.snd
  match fps.getLast?, tps.getLast? with
  | some fN, some tN =>
    if 0 < fN ∧ 0 < tN then
      some (fps.map (fun v : Int => (v : Rat) / (fN : Rat)),
            tps.map (fun v : Int => (v : Rat) / (tN : Rat)))
    else none
  | _, _ => none

/-- Summed trapezoid areas over a list of (x, y) points
(`numpy.trapz(y, x)` with the two coordinate arrays zipped). -/
def trapzPairs : List (Rat × Rat) → Rat
  | (x1, y1) :: (x2, y2) :: rest =>
    (x2 - x1) * (y1 + y2) / 2 + trapzPairs ((x2, y2) :: rest)
  | _ => 0

/-- `numpy.trapz(y, x)`. -/
def np_trapz (y x : List Rat) : Rat :=
  trapzPairs (x.zip y)

/-- Embedding of `sklearn.metrics.auc(x, y)`: requires at least two points;
requires `x` to be monotonic (raising `ValueError` otherwise), negating
the trapezoidal area when `x` is decreasing. -/
def auc (x y : List Rat) : Except String Rat :=
  if x.length < 2 then
    .error "ValueError: at least 2 points are needed"
  else
    let dx := (x.zip x.tail).map (fun p => p.2 - p.1)
    if dx.any (fun d => decide (d < 0)) then
      if dx.all (fun d => decide (d ≤ 0)) then .ok (-(np_trapz y x))
      else .error "ValueError: x is neither increasing nor decreasing"
    else .ok (np_trapz y x)

/-! ## Helper lemmas -/

/-- Flattening the n x n contingency table yields n * n counts. -/
theorem flatten_table_length (labels : List Int) (g : Int → Int → Nat) :
    (labels.map (fun a => labels.map (fun p => g a p))).flatten.length =
      labels.length * labels.length := by
  rw [List.length_flatten, List.map_map]
  have : (List.length ∘ fun a => labels.map (fun p => g a p)) =
      fun _ => labels.length := by
    funext a
    simp
  rw [this, List.map_const', List.sum_replicate, smul_eq_mul]

/-- A natural number whose square is 4 is 2. -/
theorem mul_self_eq_four_iff (n : ℕ) : n * n = 4 ↔ n = 2 := by
  constructor
  · intro h
    rcases n with _ | _ | _ | m
    · omega
    · omega
    · rfl
    · exfalso
      nlinarith
  · rintro rfl
    rfl

/-- The confusion-matrix evaluation succeeds exactly when the two label
sequences have equal length and exactly two distinct values occur in the
two sequences combined. -/
theorem cm_ok_iff (y_true y_pred : List Int) :
    (∃ m, calculate_confusion_matrix y_true y_pred = .ok m) ↔
      (y_true.length = y_pred.length ∧
        (sortedUnique (y_true ++ y_pred)).length = 2) := by
  unfold calculate_confusion_matrix confusion_matrix
  by_cases hlen : y_true.length = y_pred.length
  · simp only [hlen, ne_eq, not_true_eq_false, if_false, true_and]
    have hsq := flatten_table_length (sortedUnique (y_true ++ y_pred))
      (fun a p => (y_true.zip y_pred).count (a, p))
    rcases hfl : (((sortedUnique (y_true ++ y_pred)).map
        (fun a => (sortedUnique (y_true ++ y_pred)).map
          (fun p => (y_true.zip y_pred).count (a, p)))).flatten) with
      _ | ⟨a, _ | ⟨b, _ | ⟨c, _ | ⟨d, _ | ⟨e, rest⟩⟩⟩⟩⟩ <;>
      rw [hfl] at hsq <;> simp only [hfl, List.length_cons, List.length_nil] at hsq ⊢
    · simp only [false_iff, reduceCtorEq, exists_false]
      intro h2
      rw [h2] at hsq
      omega
    · simp only [false_iff, reduceCtorEq, exists_false]
      intro h2
      rw [h2] at hsq
      omega
    · simp only [false_iff, reduceCtorEq, exists_false]
      intro h2
      rw [h2] at hsq
      omega
    · simp only [false_iff, reduceCtorEq, exists_false]
      intro h2
      rw [h2] at hsq
      omega
    · constructor
      · intro _
        exact (mul_self_eq_four_iff _).mp hsq.symm
      · intro _
        exact ⟨_, rfl⟩
    · simp only [false_iff, reduceCtorEq, exists_false]
      intro h2
      rw [h2] at hsq
      omega
  · simp [hlen]

/-! ## Claim theorems -/

/-- C1 (counterexample): contrary to the claim, the KPI aggregation is NOT
total — on a frame whose `revenue` column is absent (and every other
column present), `calculate_kpis` raises a `KeyError` instead of degrading
the KPI to zero. -/
theorem claim_C1_counterexample :
    calculate_kpis ⟨none, some [1], some [2], some [3], some [4]⟩ =
      .error "KeyError: revenue" := rfl

/-- C1 (amended): `calculate_kpis` succeeds exactly when the `revenue`,
`conversions` and `spend` columns are all present (a missing one raises
`KeyError`); only the `ctr` and `clicks` columns degrade to zero-valued
defaults when absent.  The inline KPI computation of
`render_executive_overview` (app.py), by contrast, never raises: there a
missing `revenue`/`conversions` column degrades to 0 and a missing `spend`
column degrades to 1. -/
theorem claim_C1_amended (df : CampaignFrame) :
    ((∃ k, calculate_kpis df = .ok k) ↔
      (df.revenue ≠ none ∧ df.conversions ≠ none ∧ df.spend ≠ none)) ∧
    (∀ k, calculate_kpis df = .ok k →
      (df.ctr = none → k.avg_ctr = 0) ∧
      (df.clicks = none → k.avg_conversion_rate = 0)) ∧
    (df.revenue = none → (render_executive_overview_kpis df).total_revenue = 0) ∧
    (df.conversions = none → (render_executive_overview_kpis df).total_conversions = 0) ∧
    (df.spend = none → (render_executive_overview_kpis df).spend = 1) := by
  obtain ⟨r, c, s, cl, ct⟩ := df
  refine ⟨?_, ?_, ?_, ?_, ?_⟩ <;>
    cases r <;> cases c <;> cases s <;> cases cl <;> cases ct <;>
      simp [calculate_kpis, render_executive_overview_kpis]

/-- Witness for C1 (amended) at a concrete frame with `ctr` and `clicks`
absent. -/
theorem claim_C1_amended_witness :
    ∃ k, calculate_kpis ⟨some [5], some [2], some [4], none, none⟩ = .ok k ∧
      k.avg_ctr = 0 ∧ k.avg_conversion_rate = 0 := by
  have h := claim_C1_amended ⟨some [5], some [2], some [4], none, none⟩
  obtain ⟨k, hk⟩ := h.1.mpr ⟨by simp, by simp, by simp⟩
  exact ⟨k, hk, (h.2.1 k hk).1 rfl, (h.2.1 k hk).2 rfl⟩

/-- C2 (counterexample): the claimed error discipline is wrong in both
directions.  A valid equal-length pair whose values are all 0 raises an
unpack `ValueError` (the table is 1 x 1), and a pair containing the label
2 — outside {0,1} — is evaluated without any error (the observed label set
{0, 2} still gives a 2 x 2 table). -/
theorem claim_C2_counterexample :
    calculate_confusion_matrix [0, 0] [0, 0] = .error "ValueError: unpack" ∧
    (∃ m, calculate_confusion_matrix [0, 2] [0, 2] = .ok m) :=
  ⟨rfl, ⟨_, rfl⟩⟩

/-- C2 (amended): the evaluation fails on a length mismatch as claimed, but
the other failures are decided by the number of distinct observed values,
not by membership in {0,1}: for equal-length sequences it returns metrics
exactly when the two sequences combined contain exactly two distinct
values, and fails with an unpack error otherwise. -/
theorem claim_C2_amended (y_true y_pred : List Int) :
    ((∃ m, calculate_confusion_matrix y_true y_pred = .ok m) ↔
      (y_true.length = y_pred.length ∧
        (sortedUnique (y_true ++ y_pred)).length = 2)) ∧
    (y_true.length ≠ y_pred.length →
      calculate_confusion_matrix y_true y_pred =
        .error "ValueError: inconsistent numbers of samples") := by
  refine ⟨cm_ok_iff y_true y_pred, fun hne => ?_⟩
  unfold calculate_confusion_matrix confusion_matrix
  simp [hne]

/-- Witness for C2 (amended): a length mismatch fails, and an equal-length
two-valued pair succeeds. -/
theorem claim_C2_amended_witness :
    calculate_confusion_matrix [0] [0, 1] =
      .error "ValueError: inconsistent numbers of samples" ∧
    (∃ m, calculate_confusion_matrix [0, 1] [1, 0] = .ok m) :=
  ⟨(claim_C2_amended [0] [0, 1]).2 (by decide),
   (claim_C2_amended [0, 1] [1, 0]).1.mpr ⟨by decide, by decide⟩⟩

/-- Inversion of a successful confusion-matrix evaluation: the observed
label set is some two-element `[l0, l1]`, the four counts are the four
pair counts over that label set, and the derived metrics are the recorded
quotients. -/
theorem cm_ok_inversion (y_true y_pred : List Int) (m : CMMetrics)
    (h : calculate_confusion_matrix y_true y_pred = .ok m) :
    ∃ l0 l1, sortedUnique (y_true ++ y_pred) = [l0, l1] ∧
      m.tn = (y_true.zip y_pred).count (l0, l0) ∧
      m.fp = (y_true.zip y_pred).count (l0, l1) ∧
      m.fn = (y_true.zip y_pred).count (l1, l0) ∧
      m.tp = (y_true.zip y_pred).count (l1, l1) ∧
      m.sensitivity =
        (if 0 < m.tp + m.fn then (m.tp : Rat) / ((m.tp + m.fn : Nat) : Rat) else 0) ∧
      m.specificity =
        (if 0 < m.tn + m.fp then (m.tn : Rat) / ((m.tn + m.fp : Nat) : Rat) else 0) ∧
      m.precision =
        (if 0 < m.tp + m.fp then (m.tp : Rat) / ((m.tp + m.fp : Nat) : Rat) else 0) ∧
      m.accuracy =
        ((m.tp + m.tn : Nat) : Rat) / ((m.tp + m.tn + m.fp + m.fn : Nat) : Rat) := by
  unfold calculate_confusion_matrix at h
  split at h
  · exact absurd h (by simp)
  next cm heq =>
    unfold confusion_matrix at heq
    split at heq
    · exact absurd heq (by simp)
    next hlen =>
      simp only [Except.ok.injEq] at heq
      subst heq
      split at h
      swap
      · exact absurd h (by simp)
      next tn fp fn tp hfl =>
        simp only [Except.ok.injEq] at h
        subst h
        have hsq := flatten_table_length (sortedUnique (y_true ++ y_pred))
          (fun a p => (y_true.zip y_pred).count (a, p))
        rw [hfl] at hsq
        have h2 : (sortedUnique (y_true ++ y_pred)).length = 2 :=
          (mul_self_eq_four_iff _).mp hsq.symm
        rcases hlab : sortedUnique (y_true ++ y_pred) with _ | ⟨l0, _ | ⟨l1, _ | _⟩⟩ <;>
          rw [hlab] at h2 <;> simp only [List.length_cons, List.length_nil] at h2
        · omega
        · omega
        swap
        · omega
        rw [hlab] at hfl
        simp only [List.map_cons, List.map_nil, List.flatten_cons, List.flatten_nil,
          List.cons_append, List.nil_append, List.cons.injEq, List.append_nil] at hfl
        obtain ⟨h00, h01, h10, h11, -⟩ := hfl
        exact ⟨l0, l1, rfl, h00.symm, h01.symm, h10.symm, h11.symm,
          rfl, rfl, rfl, rfl⟩

/-- Membership in the sorted-unique label list is membership in the
original list. -/
theorem mem_sortedUnique (x : Int) (xs : List Int) :
    x ∈ sortedUnique xs ↔ x ∈ xs := by
  unfold sortedUnique
  rw [(List.perm_insertionSort _ _).mem_iff, List.mem_dedup]

/-- A successful confusion-matrix evaluation has a positive total count:
the four counts sum to at least 1. -/
theorem cm_total_pos (y_true y_pred : List Int) (m : CMMetrics)
    (h : calculate_confusion_matrix y_true y_pred = .ok m) :
    0 < m.tp + m.tn + m.fp + m.fn := by
  obtain ⟨l0, l1, hlab, htn, hfp, hfn, htp, -⟩ := cm_ok_inversion y_true y_pred m h
  obtain ⟨hlen, -⟩ := (cm_ok_iff y_true y_pred).mp ⟨m, h⟩
  rcases y_true with _ | ⟨a, yt⟩
  · rcases y_pred with _ | ⟨b, yp⟩
    · simp [sortedUnique, List.dedup] at hlab
    · simp at hlen
  · rcases y_pred with _ | ⟨b, yp⟩
    · simp at hlen
    · have hmem : (a, b) ∈ (a :: yt).zip (b :: yp) := by
        simp [List.zip_cons_cons]
      have ha : a ∈ sortedUnique ((a :: yt) ++ (b :: yp)) := by
        rw [mem_sortedUnique]
        simp
      have hb : b ∈ sortedUnique ((a :: yt) ++ (b :: yp)) := by
        rw [mem_sortedUnique]
        simp
      rw [hlab] at ha hb
      have hcount : 0 < ((a :: yt).zip (b :: yp)).count (a, b) :=
        List.count_pos_iff.mpr hmem
      simp only [List.mem_cons, List.not_mem_nil, or_false] at ha hb
      rcases ha with rfl | rfl <;> rcases hb with rfl | rfl <;> omega

/-- C3: on every successful evaluation of a valid binary-label pair, the
three guarded metrics equal their claimed quotients (0 on a zero
denominator), and the accuracy denominator TP+TN+FP+FN is positive — so
`accuracy` equals (TP+TN)/total and the unguarded division in the source
never divides by zero. -/
theorem claim_C3_metrics (y_true y_pred : List Int) (m : CMMetrics)
    (hT : ∀ v ∈ y_true, v = 0 ∨ v = 1) (hP : ∀ v ∈ y_pred, v = 0 ∨ v = 1)
    (h : calculate_confusion_matrix y_true y_pred = .ok m) :
    (m.sensitivity =
      if 0 < m.tp + m.fn then (m.tp : Rat) / ((m.tp + m.fn : Nat) : Rat) else 0) ∧
    (m.specificity =
      if 0 < m.tn + m.fp then (m.tn : Rat) / ((m.tn + m.fp : Nat) : Rat) else 0) ∧
    (m.precision =
      if 0 < m.tp + m.fp then (m.tp : Rat) / ((m.tp + m.fp : Nat) : Rat) else 0) ∧
    0 < m.tp + m.tn + m.fp + m.fn ∧
    m.accuracy =
      ((m.tp + m.tn : Nat) : Rat) / ((m.tp + m.tn + m.fp + m.fn : Nat) : Rat) := by
  obtain ⟨l0, l1, -, -, -, -, -, hsens, hspec, hprec, hacc⟩ :=
    cm_ok_inversion y_true y_pred m h
  exact ⟨hsens, hspec, hprec, cm_total_pos y_true y_pred m h, hacc⟩

/-- Witness for C3 at the spec's end-to-end scenario
labels = [1,1,0,0], predictions = [1,0,0,1]. -/
theorem claim_C3_metrics_witness :
    calculate_confusion_matrix [1, 1, 0, 0] [1, 0, 0, 1] =
      .ok ⟨1, 1, 1, 1, 1/2, 1/2, 1/2, 1/2⟩ ∧
    ((CMMetrics.mk 1 1 1 1 (1/2) (1/2) (1/2) (1/2)).sensitivity =
      if 0 < (CMMetrics.mk 1 1 1 1 (1/2) (1/2) (1/2) (1/2)).tp +
          (CMMetrics.mk 1 1 1 1 (1/2) (1/2) (1/2) (1/2)).fn then
        ((CMMetrics.mk 1 1 1 1 (1/2) (1/2) (1/2) (1/2)).tp : Rat) /
          (((CMMetrics.mk 1 1 1 1 (1/2) (1/2) (1/2) (1/2)).tp +
            (CMMetrics.mk 1 1 1 1 (1/2) (1/2) (1/2) (1/2)).fn : Nat) : Rat)
      else 0) ∧
    ((CMMetrics.mk 1 1 1 1 (1/2) (1/2) (1/2) (1/2)).specificity =
      if 0 < (CMMetrics.mk 1 1 1 1 (1/2) (1/2) (1/2) (1/2)).tn +
          (CMMetrics.mk 1 1 1 1 (1/2) (1/2) (1/2) (1/2)).fp then
        ((CMMetrics.mk 1 1 1 1 (1/2) (1/2) (1/2) (1/2)).tn : Rat) /
          (((CMMetrics.mk 1 1 1 1 (1/2) (1/2) (1/2) (1/2)).tn +
            (CMMetrics.mk 1 1 1 1 (1/2) (1/2) (1/2) (1/2)).fp : Nat) : Rat)
      else 0) ∧
    ((CMMetrics.mk 1 1 1 1 (1/2) (1/2) (1/2) (1/2)).precision =
      if 0 < (CMMetrics.mk 1 1 1 1 (1/2) (1/2) (1/2) (1/2)).tp +
          (CMMetrics.mk 1 1 1 1 (1/2) (1/2) (1/2) (1/2)).fp then
        ((CMMetrics.mk 1 1 1 1 (1/2) (1/2) (1/2) (1/2)).tp : Rat) /
          (((CMMetrics.mk 1 1 1 1 (1/2) (1/2) (1/2) (1/2)).tp +
            (CMMetrics.mk 1 1 1 1 (1/2) (1/2) (1/2) (1/2)).fp : Nat) : Rat)
      else 0) ∧
    0 < (CMMetrics.mk 1 1 1 1 (1/2) (1/2) (1/2) (1/2)).tp +
        (CMMetrics.mk 1 1 1 1 (1/2) (1/2) (1/2) (1/2)).tn +
        (CMMetrics.mk 1 1 1 1 (1/2) (1/2) (1/2) (1/2)).fp +
        (CMMetrics.mk 1 1 1 1 (1/2) (1/2) (1/2) (1/2)).fn ∧
    (CMMetrics.mk 1 1 1 1 (1/2) (1/2) (1/2) (1/2)).accuracy =
      (((CMMetrics.mk 1 1 1 1 (1/2) (1/2) (1/2) (1/2)).tp +
        (CMMetrics.mk 1 1 1 1 (1/2) (1/2) (1/2) (1/2)).tn : Nat) : Rat) /
      (((CMMetrics.mk 1 1 1 1 (1/2) (1/2) (1/2) (1/2)).tp +
        (CMMetrics.mk 1 1 1 1 (1/2) (1/2) (1/2) (1/2)).tn +
        (CMMetrics.mk 1 1 1 1 (1/2) (1/2) (1/2) (1/2)).fp +
        (CMMetrics.mk 1 1 1 1 (1/2) (1/2) (1/2) (1/2)).fn : Nat) : Rat) := by
  have hok : calculate_confusion_matrix [1, 1, 0, 0] [1, 0, 0, 1] =
      .ok ⟨1, 1, 1, 1, 1/2, 1/2, 1/2, 1/2⟩ := by
    with_unfolding_all rfl
  exact ⟨hok, claim_C3_metrics [1, 1, 0, 0] [1, 0, 0, 1] _
    (by decide) (by decide) hok⟩

/-- C4: the transition analyzer yields one record per adjacent stage pair
(`n - 1` records for `n` stages), the drop-off round-trip law
`visitors[i] = visitors[i+1] + drop_off[i]` holds at every position, and
the conversion rate is `visitors[i+1] / visitors[i] * 100` for a positive
current stage and 0 for a zero current stage. -/
theorem claim_C4_funnel (visitors : List Int) :
    (funnel_metrics visitors).length = visitors.length - 1 ∧
    ∀ (i : ℕ) (cur nxt : Int), visitors[i]? = some cur → visitors[i + 1]? = some nxt →
      ∃ t, (funnel_metrics visitors)[i]? = some t ∧
        cur = nxt + t.drop_off ∧
        ((0 : Int) < cur → t.conversion_rate = (nxt : Rat) / (cur : Rat) * 100) ∧
        (cur = 0 → t.conversion_rate = 0) := by
  constructor
  · simp only [funnel_metrics, List.length_map, List.length_zip, List.length_tail]
    omega
  · intro i cur nxt h1 h2
    have hz : (visitors.zip visitors.tail)[i]? = some (cur, nxt) := by
      rw [List.getElem?_zip_eq_some]
      exact ⟨h1, by rw [List.getElem?_tail]; exact h2⟩
    refine ⟨⟨if (0 : Int) < cur then (nxt : Rat) / (cur : Rat) * 100 else 0,
      cur - nxt, nxt⟩, ?_, ?_, ?_, ?_⟩
    · unfold funnel_metrics
      rw [List.getElem?_map, hz, Option.map_some']
    · dsimp only
      omega
    · intro hpos
      dsimp only
      rw [if_pos hpos]
    · intro hzero
      subst hzero
      dsimp only
      rw [if_neg (lt_irrefl (0 : Int))]

/-- Witness for C4 at the two-stage funnel [10, 4]. -/
theorem claim_C4_funnel_witness :
    (funnel_metrics [10, 4]).length = [(10 : Int), 4].length - 1 ∧
    (∃ t, (funnel_metrics [10, 4])[0]? = some t ∧
      (10 : Int) = 4 + t.drop_off ∧
      ((0 : Int) < 10 → t.conversion_rate = ((4 : Int) : Rat) / ((10 : Int) : Rat) * 100) ∧
      ((10 : Int) = 0 → t.conversion_rate = 0)) :=
  ⟨(claim_C4_funnel [10, 4]).1, (claim_C4_funnel [10, 4]).2 0 10 4 rfl rfl⟩

/-- C8: on every successful KPI aggregation, `roas` is
`total_revenue / total_spend` when `total_spend` is positive and 0 when
`total_spend` is non-positive. -/
theorem claim_C8_roas (df : CampaignFrame) (k : KPIs)
    (h : calculate_kpis df = .ok k) :
    (0 < k.total_spend → k.roas = k.total_revenue / k.total_spend) ∧
    (k.total_spend ≤ 0 → k.roas = 0) := by
  obtain ⟨r, c, s, cl, ct⟩ := df
  cases r <;> cases c <;> cases s <;>
    simp only [calculate_kpis, reduceCtorEq, Except.ok.injEq] at h
  subst h
  dsimp only
  constructor
  · intro hs
    rw [if_pos hs]
  · intro hs
    rw [if_neg (not_lt.mpr hs)]

/-- Witness for C8 at a frame with total spend 4 and total revenue 6. -/
theorem claim_C8_roas_witness :
    calculate_kpis ⟨some [6], some [1], some [4], none, none⟩ =
      .ok ⟨6, 1, 4, 3/2, 0, 0⟩ ∧
    ((0 < (KPIs.mk 6 1 4 (3/2) 0 0).total_spend →
      (KPIs.mk 6 1 4 (3/2) 0 0).roas =
        (KPIs.mk 6 1 4 (3/2) 0 0).total_revenue /
          (KPIs.mk 6 1 4 (3/2) 0 0).total_spend) ∧
    ((KPIs.mk 6 1 4 (3/2) 0 0).total_spend ≤ 0 →
      (KPIs.mk 6 1 4 (3/2) 0 0).roas = 0)) := by
  have hok : calculate_kpis ⟨some [6], some [1], some [4], none, none⟩ =
      .ok ⟨6, 1, 4, 3/2, 0, 0⟩ := by
    with_unfolding_all rfl
  exact ⟨hok, claim_C8_roas _ _ hok⟩

/-- C6: on a non-empty geographic collection, the growth analysis scores
every record as 0.4 x (100 - market_penetration) + 0.4 x satisfaction
+ 0.2 x (customers / max(customers) x 100) — the output being a
permutation of the scored input records — and the output is ordered by
opportunity score ascending. -/
theorem claim_C6_opportunity (records : List GeoRecord) (h : records ≠ []) :
    ∃ maxC, (records.map GeoRecord.customers).max? = some maxC ∧
      (growth_analysis records).Perm (records.map (fun r =>
        (r, (0.4 : Rat) * (100 - r.market_penetration) +
          (0.4 : Rat) * r.satisfaction +
          (0.2 : Rat) * (r.customers / maxC * 100)))) ∧
      List.Sorted (· ≤ ·) ((growth_analysis records).map Prod.snd) := by
  have hne : records.map GeoRecord.customers ≠ [] := by
    simpa using h
  obtain ⟨maxC, hmax⟩ : ∃ v, (records.map GeoRecord.customers).max? = some v := by
    cases hm : (records.map GeoRecord.customers).max? with
    | none => exact absurd (List.max?_eq_none_iff.mp hm) hne
    | some v => exact ⟨v, rfl⟩
  have hmap : records.map (fun r => (r, opportunity_score maxC r)) =
      records.map (fun r =>
        (r, (0.4 : Rat) * (100 - r.market_penetration) +
          (0.4 : Rat) * r.satisfaction +
          (0.2 : Rat) * (r.customers / maxC * 100))) :=
    List.map_congr_left (fun r _ => by
      rw [Prod.mk.injEq]
      exact ⟨rfl, by unfold opportunity_score; ring⟩)
  refine ⟨maxC, hmax, ?_, ?_⟩
  · unfold growth_analysis
    rw [hmax]
    exact hmap ▸ List.perm_insertionSort _ _
  · unfold growth_analysis
    rw [hmax]
    exact List.Pairwise.map _ (fun a b hab => hab)
      (List.sorted_insertionSort (fun a b : GeoRecord × Rat => a.2 ≤ b.2) _)

/-- Witness for C6 at a concrete two-state collection. -/
theorem claim_C6_opportunity_witness :
    ([⟨"A", 1, 10, 20, 5⟩, ⟨"B", 2, 40, 50, 6⟩] : List GeoRecord) ≠ [] ∧
    (∃ maxC, (([⟨"A", 1, 10, 20, 5⟩, ⟨"B", 2, 40, 50, 6⟩] :
        List GeoRecord).map GeoRecord.customers).max? = some maxC ∧
      (growth_analysis [⟨"A", 1, 10, 20, 5⟩, ⟨"B", 2, 40, 50, 6⟩]).Perm
        (([⟨"A", 1, 10, 20, 5⟩, ⟨"B", 2, 40, 50, 6⟩] : List GeoRecord).map (fun r =>
          (r, (0.4 : Rat) * (100 - r.market_penetration) +
            (0.4 : Rat) * r.satisfaction +
            (0.2 : Rat) * (r.customers / maxC * 100)))) ∧
      List.Sorted (· ≤ ·)
        ((growth_analysis [⟨"A", 1, 10, 20, 5⟩, ⟨"B", 2, 40, 50, 6⟩]).map Prod.snd)) :=
  ⟨by simp, claim_C6_opportunity _ (by simp)⟩

/-- C7 (counterexample): contrary to the claim, the growth analysis does
NOT fail on an empty collection — pandas' `max()` over an empty column is
NaN, never consulted by the zero remaining rows, and the call returns an
empty result normally. -/
theorem claim_C7_counterexample :
    growth_analysis [] = [] := rfl

/-- C7 (amended): on an empty geographic collection the opportunity scorer
returns an empty result without error (and an empty result arises only
from an empty input — the operation itself has no failure path). -/
theorem claim_C7_amended (records : List GeoRecord) :
    growth_analysis records = [] ↔ records = [] := by
  constructor
  · intro h
    by_contra hne
    have hmapne : records.map GeoRecord.customers ≠ [] := by
      simpa using hne
    obtain ⟨maxC, hmax⟩ : ∃ v, (records.map GeoRecord.customers).max? = some v := by
      cases hm : (records.map GeoRecord.customers).max? with
      | none => exact absurd (List.max?_eq_none_iff.mp hm) hmapne
      | some v => exact ⟨v, rfl⟩
    unfold growth_analysis at h
    rw [hmax] at h
    have h2 : List.insertionSort (fun a b : GeoRecord × Rat => a.2 ≤ b.2)
        (records.map (fun r => (r, opportunity_score maxC r))) = [] := h
    have hperm := List.perm_insertionSort (fun a b : GeoRecord × Rat => a.2 ≤ b.2)
      (records.map (fun r => (r, opportunity_score maxC r)))
    rw [h2] at hperm
    have := List.map_eq_nil_iff.mp (hperm.symm.eq_nil)
    exact hne this
  · rintro rfl
    rfl

/-- C9 (counterexample): contrary to the claim, the region/quarter
aggregation does not leave its input unchanged — on a one-row frame
without `quarter`/`year` columns, the borrowed frame seen by the caller
after the call has gained both derived columns. -/
theorem claim_C9_counterexample :
    (aggregate_by_region_quarter
        ⟨["West"], [⟨2024, 1, 15⟩], [100], none, none⟩).1 ≠
      ⟨["West"], [⟨2024, 1, 15⟩], [100], none, none⟩ := by
  intro h
  have := congrArg RegionFrame.quarter h
  simp [aggregate_by_region_quarter] at this

/-- C9 (amended): the date-based aggregators mutate the borrowed frame, but
only by writing the derived `quarter` and `year` columns; the `region`,
`date` and `revenue` columns (and the row count) are unchanged, and the
grouped result is a separate value. -/
theorem claim_C9_amended (df : RegionFrame) :
    ((aggregate_by_region_quarter df).1).region = df.region ∧
    ((aggregate_by_region_quarter df).1).date = df.date ∧
    ((aggregate_by_region_quarter df).1).revenue = df.revenue ∧
    ((aggregate_by_region_quarter df).1).quarter = some (df.date.map Date.quarter) ∧
    ((aggregate_by_region_quarter df).1).year = some (df.date.map Date.year) := by
  unfold aggregate_by_region_quarter
  exact ⟨rfl, rfl, rfl, rfl, rfl⟩

/-- C10: a valid equal-length pair in which only one distinct value occurs
(here: all zeros) makes the confusion-matrix evaluation raise the 4-way
unpack error — the contingency table is 1 x 1 — instead of returning
metrics. -/
theorem claim_C10_single_class_error :
    calculate_confusion_matrix [0, 0, 0] [0, 0, 0] = .error "ValueError: unpack" := rfl

/-! ## Cumulative-sum lemmas for the ROC development -/

theorem cumsumFrom_length (acc : Int) (xs : List Int) :
    (cumsumFrom acc xs).length = xs.length := by
  induction xs generalizing acc with
  | nil => rfl
  | cons x xs ih => simp [cumsumFrom, ih]

theorem cumsum_length (xs : List Int) : (cumsum xs).length = xs.length :=
  cumsumFrom_length 0 xs

theorem cumsumFrom_getElem? (xs : List Int) (acc : Int) (i : ℕ) (h : i < xs.length) :
    (cumsumFrom acc xs)[i]? = some (acc + (xs.take (i + 1)).sum) := by
  induction xs generalizing acc i with
  | nil => simp at h
  | cons x xs ih =>
    cases i with
    | zero => simp [cumsumFrom]
    | succ i =>
      have h' : i < xs.length := by simpa using h
      simp only [cumsumFrom, List.getElem?_cons_succ, ih (acc + x) i h',
        List.take_succ_cons, List.sum_cons]
      rw [add_assoc]

theorem cumsum_getElem? (xs : List Int) (i : ℕ) (h : i < xs.length) :
    (cumsum xs)[i]? = some ((xs.take (i + 1)).sum) := by
  rw [cumsum, cumsumFrom_getElem? xs 0 i h, zero_add]

theorem take_sum_mono (xs : List Int) (hpos : ∀ v ∈ xs, 0 ≤ v)
    (i j : ℕ) (hij : i ≤ j) : (xs.take i).sum ≤ (xs.take j).sum := by
  have hsub : List.Sublist (xs.take i) (xs.take j) := by
    have : xs.take i = (xs.take j).take i := by
      rw [List.take_take, Nat.min_eq_left hij]
    rw [this]
    exact List.take_sublist i (xs.take j)
  exact hsub.sum_le_sum (fun a ha => hpos a (List.mem_of_mem_take ha))

theorem take_sum_le_natCast (xs : List Int) (hone : ∀ v ∈ xs, v ≤ 1) (i : ℕ) :
    (xs.take i).sum ≤ (i : Int) := by
  have h1 := List.sum_le_card_nsmul (xs.take i) 1
    (fun x hx => hone x (List.mem_of_mem_take hx))
  rw [nsmul_eq_mul, mul_one] at h1
  calc (xs.take i).sum ≤ ((xs.take i).length : Int) := h1
    _ ≤ (i : Int) := by
        have := List.length_take_le i xs
        exact_mod_cast Nat.le_of_lt_succ (Nat.lt_succ_of_le (List.length_take_le i xs))

theorem take_sum_lipschitz (xs : List Int) (hone : ∀ v ∈ xs, v ≤ 1)
    (i j : ℕ) (hij : i ≤ j) :
    (xs.take j).sum - (xs.take i).sum ≤ ((j : Int) - (i : Int)) := by
  have hdecomp : xs.take j = xs.take i ++ (xs.drop i).take (j - i) := by
    rw [← List.take_add]
    congr 1
    omega
  have hseg : ((xs.drop i).take (j - i)).sum ≤ ((j - i : ℕ) : Int) :=
    take_sum_le_natCast (xs.drop i) (fun v hv => hone v (List.mem_of_mem_drop hv)) (j - i)
  rw [hdecomp, List.sum_append]
  have : (((j - i : ℕ)) : Int) = (j : Int) - (i : Int) := by
    omega
  rw [this] at hseg
  omega

/-! ## Threshold-index and selection lemmas -/

theorem threshold_idxs_mem_lt (ss : List Rat) (hne : ss ≠ []) :
    ∀ i ∈ threshold_idxs ss, i < ss.length := by
  intro i hi
  unfold threshold_idxs at hi
  rcases List.mem_append.mp hi with h | h
  · have := List.mem_range.mp (List.mem_of_mem_filter h)
    omega
  · have hlen : 0 < ss.length := List.length_pos.mpr hne
    simp only [List.mem_singleton] at h
    omega

theorem threshold_idxs_pairwise (ss : List Rat) :
    List.Pairwise (· < ·) (threshold_idxs ss) := by
  unfold threshold_idxs
  rw [List.pairwise_append]
  refine ⟨(List.pairwise_lt_range _).filter _, List.pairwise_singleton _ _, ?_⟩
  intro a ha b hb
  simp only [List.mem_singleton] at hb
  subst hb
  have := List.mem_range.mp (List.mem_of_mem_filter ha)
  omega

theorem threshold_idxs_getLast? (ss : List Rat) :
    (threshold_idxs ss).getLast? = some (ss.length - 1) :=
  List.getLast?_concat _

theorem select_eq_map_getD (l : List Int) (idxs : List Nat)
    (hval : ∀ i ∈ idxs, i < l.length) :
    select l idxs = idxs.map (fun i => l.getD i 0) := by
  induction idxs with
  | nil => rfl
  | cons i rest ih =>
    have hi : i < l.length := hval i (by simp)
    have hsome : l[i]? = some (l.getD i 0) := by
      rw [List.getD_eq_getElem?_getD, List.getElem?_eq_getElem hi]
      rfl
    have ih' := ih (fun j hj => hval j (List.mem_cons_of_mem _ hj))
    unfold select at ih' ⊢
    rw [List.filterMap_cons, hsome, List.map_cons]
    rw [ih']

theorem mem_select (l : List Int) (idxs : List Nat) (x : Int)
    (hx : x ∈ select l idxs) : ∃ j ∈ idxs, l[j]? = some x :=
  List.mem_filterMap.mp hx

theorem select_concat_getLast? (l : List Int) (idxs : List Nat) (k : ℕ) (v : Int)
    (hk : l[k]? = some v) :
    (select l (idxs ++ [k])).getLast? = some v := by
  unfold select
  rw [List.filterMap_append]
  have hone : List.filterMap (fun i => l[i]?) [k] = [v] := by
    simp [List.filterMap_cons, hk]
  rw [hone, List.getLast?_concat]

/-! ## Pointwise cumulative-sum bounds -/

theorem cumsum_getD_mono (xs : List Int) (hpos : ∀ v ∈ xs, 0 ≤ v)
    (i j : ℕ) (hij : i ≤ j) (hj : j < xs.length) :
    (cumsum xs).getD i 0 ≤ (cumsum xs).getD j 0 := by
  have hi : i < xs.length := lt_of_le_of_lt hij hj
  rw [List.getD_eq_getElem?_getD, List.getD_eq_getElem?_getD,
    cumsum_getElem? _ _ hi, cumsum_getElem? _ _ hj]
  exact take_sum_mono xs hpos (i + 1) (j + 1) (by omega)

theorem cumsum_getD_lipschitz (xs : List Int) (hone : ∀ v ∈ xs, v ≤ 1)
    (i j : ℕ) (hij : i ≤ j) (hj : j < xs.length) :
    (cumsum xs).getD j 0 - (cumsum xs).getD i 0 ≤ (j : Int) - (i : Int) := by
  have hi : i < xs.length := lt_of_le_of_lt hij hj
  rw [List.getD_eq_getElem?_getD, List.getD_eq_getElem?_getD,
    cumsum_getElem? _ _ hi, cumsum_getElem? _ _ hj]
  have := take_sum_lipschitz xs hone (i + 1) (j + 1) (by omega)
  push_cast at this ⊢
  simp only [Option.getD_some]
  omega

theorem cumsum_getD_nonneg (xs : List Int) (hpos : ∀ v ∈ xs, 0 ≤ v)
    (i : ℕ) (hi : i < xs.length) : 0 ≤ (cumsum xs).getD i 0 := by
  rw [List.getD_eq_getElem?_getD, cumsum_getElem? _ _ hi]
  exact List.sum_nonneg (fun x hx => hpos x (List.mem_of_mem_take hx))

theorem cumsum_getD_le_index (xs : List Int) (hone : ∀ v ∈ xs, v ≤ 1)
    (i : ℕ) (hi : i < xs.length) : (cumsum xs).getD i 0 ≤ (i : Int) + 1 := by
  rw [List.getD_eq_getElem?_getD, cumsum_getElem? _ _ hi]
  have := take_sum_le_natCast xs hone (i + 1)
  push_cast at this ⊢
  simp only [Option.getD_some]
  omega

theorem cumsum_getD_le_sum (xs : List Int) (hpos : ∀ v ∈ xs, 0 ≤ v)
    (i : ℕ) (hi : i < xs.length) : (cumsum xs).getD i 0 ≤ xs.sum := by
  rw [List.getD_eq_getElem?_getD, cumsum_getElem? _ _ hi]
  have := take_sum_mono xs hpos (i + 1) xs.length (by omega)
  rwa [List.take_of_length_le le_rfl] at this

theorem cumsum_getD_last (xs : List Int) (hne : xs ≠ []) :
    (cumsum xs).getD (xs.length - 1) 0 = xs.sum := by
  have hlen : 0 < xs.length := List.length_pos.mpr hne
  rw [List.getD_eq_getElem?_getD, cumsum_getElem? _ _ (by omega)]
  have : xs.length - 1 + 1 = xs.length := by omega
  rw [this, List.take_of_length_le le_rfl]
  rfl

theorem sum_pos_of_mem_one (xs : List Int) (hpos : ∀ v ∈ xs, 0 ≤ v)
    (h1 : (1 : Int) ∈ xs) : 0 < xs.sum := by
  obtain ⟨s, t, rfl⟩ := List.append_of_mem h1
  rw [List.sum_append, List.sum_cons]
  have hs : (0 : Int) ≤ s.sum :=
    List.sum_nonneg (fun x hx => hpos x (List.mem_append.mpr (Or.inl hx)))
  have ht : (0 : Int) ≤ t.sum :=
    List.sum_nonneg (fun x hx =>
      hpos x (List.mem_append.mpr (Or.inr (List.mem_cons_of_mem _ hx))))
  omega

theorem sum_lt_length_of_mem_zero (xs : List Int) (hone : ∀ v ∈ xs, v ≤ 1)
    (h0 : (0 : Int) ∈ xs) : xs.sum < (xs.length : Int) := by
  obtain ⟨s, t, rfl⟩ := List.append_of_mem h0
  rw [List.sum_append, List.sum_cons]
  have hs := List.sum_le_card_nsmul s 1 (fun x hx => hone x (by simp [hx]))
  have ht := List.sum_le_card_nsmul t 1 (fun x hx => hone x (by simp [hx]))
  rw [nsmul_eq_mul, mul_one] at hs ht
  have hlen : (s ++ 0 :: t).length = s.length + t.length + 1 := by
    simp
    omega
  rw [hlen]
  push_cast
  omega

/-! ## Mask-selection and drop-intermediate lemmas -/

theorem maskSelect_sublist {α : Type} (xs : List α) (m : List Bool) :
    List.Sublist (maskSelect xs m) xs := by
  induction xs generalizing m with
  | nil => cases m <;> simp [maskSelect]
  | cons x xs ih =>
    cases m with
    | nil => simp [maskSelect]
    | cons b ms =>
      cases b with
      | false =>
        simp only [maskSelect, Bool.false_eq_true, if_false]
        exact (ih ms).cons x
      | true =>
        simp only [maskSelect, if_true]
        exact (ih ms).cons₂ x

theorem maskSelect_getLast? {α : Type} (xs : List α) (m : List Bool)
    (hlen : m.length = xs.length) (hlast : m.getLast? = some true) :
    (maskSelect xs m).getLast? = xs.getLast? := by
  induction xs generalizing m with
  | nil =>
    have hm : m = [] := List.length_eq_zero.mp hlen
    subst hm
    simp at hlast
  | cons x xs ih =>
    cases m with
    | nil => simp at hlen
    | cons b ms =>
      cases xs with
      | nil =>
        have hms : ms = [] := by
          simpa using hlen
        subst hms
        simp only [List.getLast?_singleton, Option.some.injEq] at hlast
        subst hlast
        rfl
      | cons x' xs' =>
        have hms : ms ≠ [] := by
          intro h
          subst h
          simp at hlen
        obtain ⟨m1, ms1, rfl⟩ := List.exists_cons_of_ne_nil hms
        have hlast' : (m1 :: ms1).getLast? = some true := by
          rwa [List.getLast?_cons_cons] at hlast
        have hlen' : (m1 :: ms1).length = (x' :: xs').length := by
          simpa using hlen
        have ihh := ih (m1 :: ms1) hlen' hlast'
        have hne_sel : maskSelect (x' :: xs') (m1 :: ms1) ≠ [] := by
          intro hsel
          rw [hsel] at ihh
          have hsome : (x' :: xs').getLast?.isSome = true :=
            List.getLast?_isSome.mpr (by simp)
          rw [← ihh] at hsome
          simp at hsome
        cases b with
        | false =>
          have hstep : maskSelect (x :: x' :: xs') (false :: m1 :: ms1) =
              maskSelect (x' :: xs') (m1 :: ms1) := rfl
          rw [hstep, List.getLast?_cons_cons]
          exact ihh
        | true =>
          obtain ⟨z, zs, hz⟩ := List.exists_cons_of_ne_nil hne_sel
          have hstep : maskSelect (x :: x' :: xs') (true :: m1 :: ms1) =
              x :: maskSelect (x' :: xs') (m1 :: ms1) := rfl
          rw [hstep, hz, List.getLast?_cons_cons, ← hz, ihh, List.getLast?_cons_cons]

theorem interiorMask_length (zs : List (Int × Int)) :
    (interiorMask zs).length = zs.length - 2 := by
  induction zs with
  | nil => rfl
  | cons a zs ih =>
    cases zs with
    | nil => rfl
    | cons b zs' =>
      cases zs' with
      | nil => rfl
      | cons c rest =>
        simp only [interiorMask, List.length_cons]
        simp only [List.length_cons] at ih
        omega

theorem drop_intermediate_pairs_sublist (zs : List (Int × Int)) :
    List.Sublist (drop_intermediate_pairs zs) zs := by
  unfold drop_intermediate_pairs
  split
  · exact List.Sublist.refl zs
  · exact maskSelect_sublist zs _

theorem drop_intermediate_pairs_getLast? (zs : List (Int × Int)) :
    (drop_intermediate_pairs zs).getLast? = zs.getLast? := by
  unfold drop_intermediate_pairs
  split
  · rfl
  next h =>
    apply maskSelect_getLast?
    · simp only [List.length_cons, List.length_append, interiorMask_length,
        List.length_nil]
      omega
    · rw [← List.cons_append, List.getLast?_concat]

/-! ## Zip and trapezoid lemmas -/

theorem zip_getLast?_of_getLast? {α β : Type} (l1 : List α) (l2 : List β)
    (hlen : l1.length = l2.length) (a : α) (b : β)
    (ha : l1.getLast? = some a) (hb : l2.getLast? = some b) :
    (l1.zip l2).getLast? = some (a, b) := by
  induction l1 generalizing l2 with
  | nil => simp at ha
  | cons x l1' ih =>
    cases l2 with
    | nil => simp at hlen
    | cons y l2' =>
      cases l1' with
      | nil =>
        have hl2 : l2' = [] := by
          simpa using hlen.symm
        subst hl2
        simp only [List.getLast?_singleton, Option.some.injEq] at ha hb
        subst ha
        subst hb
        rfl
      | cons x' l1'' =>
        have hl2' : l2' ≠ [] := by
          intro h
          subst h
          simp at hlen
        obtain ⟨y', l2'', rfl⟩ := List.exists_cons_of_ne_nil hl2'
        rw [List.getLast?_cons_cons] at ha
        rw [List.getLast?_cons_cons] at hb
        rw [List.zip_cons_cons, List.zip_cons_cons, List.getLast?_cons_cons,
          ← List.zip_cons_cons]
        exact ih (y' :: l2'') (by simpa using hlen) ha hb

theorem zip_pairwise_fst (x y : List Rat) (hx : List.Pairwise (· ≤ ·) x) :
    List.Pairwise (fun a b : Rat × Rat => a.1 ≤ b.1) (x.zip y) := by
  rw [List.pairwise_iff_getElem] at hx ⊢
  intro i j hi hj hij
  have hxi : i < x.length := by
    rw [List.length_zip] at hi
    omega
  have hxj : j < x.length := by
    rw [List.length_zip] at hj
    omega
  simp only [List.getElem_zip]
  exact hx i j hxi hxj hij

theorem trapzPairs_bounds (ps : List (Rat × Rat))
    (hx : List.Pairwise (fun a b : Rat × Rat => a.1 ≤ b.1) ps)
    (hy : ∀ p ∈ ps, 0 ≤ p.2 ∧ p.2 ≤ 1) :
    0 ≤ trapzPairs ps ∧
      (∀ pf pl, ps.head? = some pf → ps.getLast? = some pl →
        trapzPairs ps ≤ pl.1 - pf.1) := by
  induction ps with
  | nil =>
    refine ⟨le_refl 0, ?_⟩
    intro pf pl hpf hpl
    simp at hpf
  | cons p tail ih =>
    obtain ⟨p1, p2⟩ := p
    cases tail with
    | nil =>
      refine ⟨le_refl 0, ?_⟩
      intro pf pl hpf hpl
      simp only [List.head?_cons, Option.some.injEq] at hpf
      simp only [List.getLast?_singleton, Option.some.injEq] at hpl
      subst hpf
      subst hpl
      simp [trapzPairs]
    | cons q rest =>
      obtain ⟨q1, q2⟩ := q
      obtain ⟨hpq, hx'⟩ := List.pairwise_cons.mp hx
      have hr : p1 ≤ q1 := hpq (q1, q2) (by simp)
      have ihh := ih hx' (fun r hr' => hy r (List.mem_cons_of_mem _ hr'))
      have hyp := hy (p1, p2) (by simp)
      have hyq := hy (q1, q2) (by simp)
      have hterm0 : 0 ≤ (q1 - p1) * (p2 + q2) / 2 := by
        apply div_nonneg
        · apply mul_nonneg
          · linarith
          · linarith [hyp.1, hyq.1]
        · norm_num
      have hterm1 : (q1 - p1) * (p2 + q2) / 2 ≤ q1 - p1 := by
        nlinarith [hyp.2, hyq.2, hr]
      constructor
      · simp only [trapzPairs]
        linarith [ihh.1]
      · intro pf pl hpf hpl
        simp only [List.head?_cons, Option.some.injEq] at hpf
        subst hpf
        rw [List.getLast?_cons_cons] at hpl
        have hrest := ihh.2 (q1, q2) pl (by simp) hpl
        simp only [trapzPairs]
        linarith

/-! ## Core facts about the normalised ROC curve -/

theorem zip_self_map (idxs : List Nat) (g : Nat → Int) :
    idxs.zip (idxs.map g) = idxs.map (fun i => (i, g i)) := by
  induction idxs with
  | nil => rfl
  | cons i rest ih => simp [List.zip_cons_cons, ih]

/-- Everything the C5 claim needs about the tail of `roc_curve` — origin
prepending, `drop_intermediate`, normalisation — and about `auc` on the
result, given the clf-curve count lists and their properties. -/
theorem roc_core (fps tps : List Int) (fN tN : Int)
    (hlen : fps.length = tps.length)
    (hf_pw : List.Pairwise (· ≤ ·) fps)
    (ht_pw : List.Pairwise (· ≤ ·) tps)
    (hf_nonneg : ∀ v ∈ fps, 0 ≤ v)
    (ht_nonneg : ∀ v ∈ tps, 0 ≤ v)
    (ht_le : ∀ v ∈ tps, v ≤ tN)
    (hf_last : fps.getLast? = some fN)
    (ht_last : tps.getLast? = some tN)
    (hfN : 0 < fN) (htN : 0 < tN) :
    (((0 : Int) :: (drop_intermediate_pairs (fps.zip tps)).map Prod.fst).getLast? =
      some fN) ∧
    (((0 : Int) :: (drop_intermediate_pairs (fps.zip tps)).map Prod.snd).getLast? =
      some tN) ∧
    ((((0 : Int) :: (drop_intermediate_pairs (fps.zip tps)).map Prod.fst).map
      (fun v : Int => (v : Rat) / (fN : Rat))).head? = some 0) ∧
    ((((0 : Int) :: (drop_intermediate_pairs (fps.zip tps)).map Prod.snd).map
      (fun v : Int => (v : Rat) / (tN : Rat))).head? = some 0) ∧
    ((((0 : Int) :: (drop_intermediate_pairs (fps.zip tps)).map Prod.fst).map
      (fun v : Int => (v : Rat) / (fN : Rat))).getLast? = some 1) ∧
    ((((0 : Int) :: (drop_intermediate_pairs (fps.zip tps)).map Prod.snd).map
      (fun v : Int => (v : Rat) / (tN : Rat))).getLast? = some 1) ∧
    (∃ a, auc
        (((0 : Int) :: (drop_intermediate_pairs (fps.zip tps)).map Prod.fst).map
          (fun v : Int => (v : Rat) / (fN : Rat)))
        (((0 : Int) :: (drop_intermediate_pairs (fps.zip tps)).map Prod.snd).map
          (fun v : Int => (v : Rat) / (tN : Rat))) = .ok a ∧
      0 ≤ a ∧ a ≤ 1) := by
  have hfNQ : (0 : Rat) < (fN : Rat) := by exact_mod_cast hfN
  have htNQ : (0 : Rat) < (tN : Rat) := by exact_mod_cast htN
  set zs := drop_intermediate_pairs (fps.zip tps) with hzs
  have hzip_last : (fps.zip tps).getLast? = some (fN, tN) :=
    zip_getLast?_of_getLast? fps tps hlen fN tN hf_last ht_last
  have hzs_last : zs.getLast? = some (fN, tN) := by
    rw [hzs, drop_intermediate_pairs_getLast?, hzip_last]
  have hzs_sub : List.Sublist zs (fps.zip tps) := drop_intermediate_pairs_sublist _
  have hzs_ne : zs ≠ [] := by
    intro h
    rw [h] at hzs_last
    simp at hzs_last
  obtain ⟨z0, zrest, hz0⟩ := List.exists_cons_of_ne_nil hzs_ne
  have hfst_last : (zs.map Prod.fst).getLast? = some fN := by
    rw [List.getLast?_map, hzs_last]
    rfl
  have hsnd_last : (zs.map Prod.snd).getLast? = some tN := by
    rw [List.getLast?_map, hzs_last]
    rfl
  have hfps2_last : ((0 : Int) :: zs.map Prod.fst).getLast? = some fN := by
    rw [hz0, List.map_cons, List.getLast?_cons_cons, ← List.map_cons, ← hz0, hfst_last]
  have htps2_last : ((0 : Int) :: zs.map Prod.snd).getLast? = some tN := by
    rw [hz0, List.map_cons, List.getLast?_cons_cons, ← List.map_cons, ← hz0, hsnd_last]
  -- the masked count lists are sublists of the originals
  have hsubf : List.Sublist (zs.map Prod.fst) fps := by
    have h1 := hzs_sub.map Prod.fst
    rwa [List.map_fst_zip fps tps (le_of_eq hlen)] at h1
  have hsubt : List.Sublist (zs.map Prod.snd) tps := by
    have h1 := hzs_sub.map Prod.snd
    rwa [List.map_snd_zip fps tps (ge_of_eq hlen)] at h1
  have hfm_pw : List.Pairwise (· ≤ ·) (zs.map Prod.fst) :=
    List.Pairwise.sublist hsubf hf_pw
  have htm_pw : List.Pairwise (· ≤ ·) (zs.map Prod.snd) :=
    List.Pairwise.sublist hsubt ht_pw
  have hfm_nonneg : ∀ v ∈ zs.map Prod.fst, 0 ≤ v :=
    fun v hv => hf_nonneg v (hsubf.subset hv)
  have htm_nonneg : ∀ v ∈ zs.map Prod.snd, 0 ≤ v :=
    fun v hv => ht_nonneg v (hsubt.subset hv)
  have htm_le : ∀ v ∈ zs.map Prod.snd, v ≤ tN :=
    fun v hv => ht_le v (hsubt.subset hv)
  have hfps2_pw : List.Pairwise (· ≤ ·) ((0 : Int) :: zs.map Prod.fst) :=
    List.pairwise_cons.mpr ⟨fun b hb => hfm_nonneg b hb, hfm_pw⟩
  have htps2_pw : List.Pairwise (· ≤ ·) ((0 : Int) :: zs.map Prod.snd) :=
    List.pairwise_cons.mpr ⟨fun b hb => htm_nonneg b hb, htm_pw⟩
  have hFPR_pw : List.Pairwise (· ≤ ·)
      (((0 : Int) :: zs.map Prod.fst).map (fun v : Int => (v : Rat) / (fN : Rat))) := by
    rw [List.pairwise_map]
    refine hfps2_pw.imp_of_mem ?_
    intro a b ha hb hab
    exact (div_le_div_right hfNQ).mpr (by exact_mod_cast hab)
  have hTPR_bounds : ∀ q ∈ ((0 : Int) :: zs.map Prod.snd).map
      (fun v : Int => (v : Rat) / (tN : Rat)), 0 ≤ q ∧ q ≤ 1 := by
    intro q hq
    obtain ⟨v, hv, rfl⟩ := List.mem_map.mp hq
    have hv0 : (0 : Int) ≤ v := by
      rcases List.mem_cons.mp hv with rfl | hv'
      · exact le_refl 0
      · exact htm_nonneg v hv'
    have hvN : v ≤ tN := by
      rcases List.mem_cons.mp hv with rfl | hv'
      · exact le_of_lt htN
      · exact htm_le v hv'
    constructor
    · exact div_nonneg (by exact_mod_cast hv0) (le_of_lt htNQ)
    · exact (div_le_one htNQ).mpr (by exact_mod_cast hvN)
  have hFPR_last : (((0 : Int) :: zs.map Prod.fst).map
      (fun v : Int => (v : Rat) / (fN : Rat))).getLast? = some 1 := by
    rw [List.getLast?_map, hfps2_last, Option.map_some']
    rw [div_self (ne_of_gt hfNQ)]
  have hTPR_last : (((0 : Int) :: zs.map Prod.snd).map
      (fun v : Int => (v : Rat) / (tN : Rat))).getLast? = some 1 := by
    rw [List.getLast?_map, htps2_last, Option.map_some']
    rw [div_self (ne_of_gt htNQ)]
  have hFPR_head : (((0 : Int) :: zs.map Prod.fst).map
      (fun v : Int => (v : Rat) / (fN : Rat))).head? = some 0 := by
    simp
  have hTPR_head : (((0 : Int) :: zs.map Prod.snd).map
      (fun v : Int => (v : Rat) / (tN : Rat))).head? = some 0 := by
    simp
  refine ⟨hfps2_last, htps2_last, hFPR_head, hTPR_head, hFPR_last, hTPR_last, ?_⟩
  -- the auc computation
  set FPR := ((0 : Int) :: zs.map Prod.fst).map (fun v : Int => (v : Rat) / (fN : Rat))
    with hFPR
  set TPR := ((0 : Int) :: zs.map Prod.snd).map (fun v : Int => (v : Rat) / (tN : Rat))
    with hTPR
  have hFPR_len : 2 ≤ FPR.length := by
    rw [hFPR, hz0]
    simp
  have hTPR_len : FPR.length = TPR.length := by
    rw [hFPR, hTPR]
    simp
  have hdx : ∀ d ∈ (FPR.zip FPR.tail).map (fun p => p.2 - p.1), 0 ≤ d := by
    intro d hd
    obtain ⟨p, hp, rfl⟩ := List.mem_map.mp hd
    obtain ⟨i, hpi⟩ := List.mem_iff_getElem?.mp hp
    rw [List.getElem?_zip_eq_some] at hpi
    obtain ⟨hp1, hp2⟩ := hpi
    rw [List.getElem?_tail] at hp2
    obtain ⟨hi1, he1⟩ := List.getElem?_eq_some.mp hp1
    obtain ⟨hi2, he2⟩ := List.getElem?_eq_some.mp hp2
    have := (List.pairwise_iff_getElem.mp hFPR_pw) i (i + 1) hi1 hi2 (by omega)
    rw [he1, he2] at this
    linarith
  have hany : ((FPR.zip FPR.tail).map (fun p => p.2 - p.1)).any
      (fun d => decide (d < 0)) = false := by
    rw [List.any_eq_false]
    intro d hd
    simp only [decide_eq_true_eq]
    exact not_lt.mpr (hdx d hd)
  have hzipPW : List.Pairwise (fun a b : Rat × Rat => a.1 ≤ b.1) (FPR.zip TPR) :=
    zip_pairwise_fst FPR TPR hFPR_pw
  have hzipY : ∀ p ∈ FPR.zip TPR, 0 ≤ p.2 ∧ p.2 ≤ 1 := by
    intro p hp
    obtain ⟨p1, p2⟩ := p
    exact hTPR_bounds p2 (List.of_mem_zip hp).2
  obtain ⟨htz0, htzle⟩ := trapzPairs_bounds (FPR.zip TPR) hzipPW hzipY
  have hzip_first : (FPR.zip TPR).head? =
      some ((0 : Rat) / (fN : Rat), (0 : Rat) / (tN : Rat)) := by
    rw [hFPR, hTPR]
    simp
  have hzip_last2 : (FPR.zip TPR).getLast? = some (1, 1) :=
    zip_getLast?_of_getLast? FPR TPR hTPR_len 1 1 hFPR_last hTPR_last
  have hle1 : trapzPairs (FPR.zip TPR) ≤ 1 := by
    have := htzle ((0 : Rat) / (fN : Rat), (0 : Rat) / (tN : Rat)) (1, 1)
      hzip_first hzip_last2
    simp only [zero_div] at this
    linarith
  refine ⟨np_trapz TPR FPR, ?_, ?_, ?_⟩
  · unfold auc
    rw [if_neg (by omega)]
    rw [if_neg (by rw [hany]; exact Bool.false_ne_true)]
  · unfold np_trapz
    exact htz0
  · unfold np_trapz
    exact hle1

/-- Everything the C5 claim needs about the clf-curve count lists `fps` and
`tps`, stated over the post-sort 0/1 indicator list `ys01` and score list
`ss` with defining equations as hypotheses. -/
theorem clf_counts_facts (ys01 : List Int) (ss : List Rat) (fps tps : List Int)
    (hlen_eq : ss.length = ys01.length)
    (hentries : ∀ v ∈ ys01, 0 ≤ v ∧ v ≤ 1)
    (h1 : (1 : Int) ∈ ys01) (h0 : (0 : Int) ∈ ys01)
    (htps : tps = select (cumsum ys01) (threshold_idxs ss))
    (hfps : fps = ((threshold_idxs ss).zip tps).map
      (fun p => (p.1 : Int) + 1 - p.2)) :
    fps.length = tps.length ∧
    List.Pairwise (· ≤ ·) fps ∧
    List.Pairwise (· ≤ ·) tps ∧
    (∀ v ∈ fps, 0 ≤ v) ∧
    (∀ v ∈ tps, 0 ≤ v) ∧
    (∀ v ∈ tps, v ≤ ys01.sum) ∧
    fps.getLast? = some ((ys01.length : Int) - ys01.sum) ∧
    tps.getLast? = some ys01.sum ∧
    0 < (ys01.length : Int) - ys01.sum ∧
    0 < ys01.sum := by
  subst htps
  subst hfps
  have hpos : ∀ v ∈ ys01, 0 ≤ v := fun v hv => (hentries v hv).1
  have hone : ∀ v ∈ ys01, v ≤ 1 := fun v hv => (hentries v hv).2
  have hne : ys01 ≠ [] := List.ne_nil_of_mem h1
  have hn_pos : 0 < ys01.length := List.length_pos.mpr hne
  have hss_ne : ss ≠ [] := by
    intro h
    rw [h] at hlen_eq
    simp at hlen_eq
    omega
  have hcss_len : (cumsum ys01).length = ys01.length := cumsum_length ys01
  have hvalid : ∀ i ∈ threshold_idxs ss, i < (cumsum ys01).length := by
    intro i hi
    have := threshold_idxs_mem_lt ss hss_ne i hi
    omega
  have hpw := threshold_idxs_pairwise ss
  have hsel : select (cumsum ys01) (threshold_idxs ss) =
      (threshold_idxs ss).map (fun i => (cumsum ys01).getD i 0) :=
    select_eq_map_getD _ _ hvalid
  have hfps_eq : ((threshold_idxs ss).zip
        (select (cumsum ys01) (threshold_idxs ss))).map
        (fun p => (p.1 : Int) + 1 - p.2) =
      (threshold_idxs ss).map (fun i : ℕ => (i : Int) + 1 - (cumsum ys01).getD i 0) := by
    rw [hsel, zip_self_map, List.map_map]
    rfl
  have hcss_last_elem : (cumsum ys01)[ss.length - 1]? = some ys01.sum := by
    have hidx : ss.length - 1 < ys01.length := by omega
    rw [cumsum_getElem? ys01 (ss.length - 1) hidx]
    congr 1
    have hn : ss.length - 1 + 1 = ys01.length := by omega
    rw [hn, List.take_of_length_le le_rfl]
  refine ⟨?_, ?_, ?_, ?_, ?_, ?_, ?_, ?_, ?_, ?_⟩
  · rw [hfps_eq, hsel]
    simp
  · rw [hfps_eq, List.pairwise_map]
    refine hpw.imp_of_mem ?_
    intro i j hi hj hij
    have hj' : j < ys01.length := by
      have := hvalid j hj
      omega
    have := cumsum_getD_lipschitz ys01 hone i j (le_of_lt hij) hj'
    omega
  · rw [hsel, List.pairwise_map]
    refine hpw.imp_of_mem ?_
    intro i j hi hj hij
    have hj' : j < ys01.length := by
      have := hvalid j hj
      omega
    exact cumsum_getD_mono ys01 hpos i j (le_of_lt hij) hj'
  · rw [hfps_eq]
    intro v hv
    obtain ⟨i, hi, rfl⟩ := List.mem_map.mp hv
    have hi' : i < ys01.length := by
      have := hvalid i hi
      omega
    have := cumsum_getD_le_index ys01 hone i hi'
    omega
  · rw [hsel]
    intro v hv
    obtain ⟨i, hi, rfl⟩ := List.mem_map.mp hv
    have hi' : i < ys01.length := by
      have := hvalid i hi
      omega
    exact cumsum_getD_nonneg ys01 hpos i hi'
  · rw [hsel]
    intro v hv
    obtain ⟨i, hi, rfl⟩ := List.mem_map.mp hv
    have hi' : i < ys01.length := by
      have := hvalid i hi
      omega
    exact cumsum_getD_le_sum ys01 hpos i hi'
  · rw [hfps_eq, List.getLast?_map, threshold_idxs_getLast? ss, Option.map_some']
    have hgdlast : (cumsum ys01).getD (ss.length - 1) 0 = ys01.sum := by
      have hidx : ss.length - 1 = ys01.length - 1 := by omega
      rw [hidx]
      exact cumsum_getD_last ys01 hne
    rw [hgdlast]
    congr 1
    omega
  · unfold threshold_idxs
    exact select_concat_getLast? _ _ _ _ hcss_last_elem
  · have := sum_lt_length_of_mem_zero ys01 hone h0
    omega
  · exact sum_pos_of_mem_one ys01 hpos h1

/-- C5: on every valid non-degenerate input — equal-length label and
probability sequences, labels within {0,1} with both classes present,
probabilities within [0,1] — the ROC computation returns (without the NaN
degradation): the curve starts at (0, 0), ends at (1, 1), and the AUC
computed from it by the trapezoidal rule lies in [0, 1]. -/
theorem claim_C5_roc (y_true : List Int) (y_score : List Rat)
    (hlen : y_true.length = y_score.length)
    (hlab : ∀ v ∈ y_true, v = 0 ∨ v = 1)
    (h0 : (0 : Int) ∈ y_true) (h1 : (1 : Int) ∈ y_true)
    (hprob : ∀ p ∈ y_score, 0 ≤ p ∧ p ≤ 1) :
    ∃ fpr tpr, roc_curve y_true y_score = some (fpr, tpr) ∧
      fpr.head? = some 0 ∧ tpr.head? = some 0 ∧
      fpr.getLast? = some 1 ∧ tpr.getLast? = some 1 ∧
      ∃ a, auc fpr tpr = .ok a ∧ 0 ≤ a ∧ a ≤ 1 := by
  -- both classes appear among the zipped samples
  obtain ⟨i0, hi0s⟩ := List.mem_iff_getElem?.mp h0
  obtain ⟨i1, hi1s⟩ := List.mem_iff_getElem?.mp h1
  obtain ⟨hi0, he0⟩ := List.getElem?_eq_some.mp hi0s
  obtain ⟨hi1, he1⟩ := List.getElem?_eq_some.mp hi1s
  obtain ⟨q0, hq0⟩ : ∃ q, y_score[i0]? = some q :=
    ⟨_, List.getElem?_eq_getElem (by omega)⟩
  obtain ⟨q1, hq1⟩ : ∃ q, y_score[i1]? = some q :=
    ⟨_, List.getElem?_eq_getElem (by omega)⟩
  have hz0 : ((0 : Int), q0) ∈ y_true.zip y_score :=
    List.mem_iff_getElem?.mpr ⟨i0, List.getElem?_zip_eq_some.mpr ⟨hi0s, hq0⟩⟩
  have hz1 : ((1 : Int), q1) ∈ y_true.zip y_score :=
    List.mem_iff_getElem?.mpr ⟨i1, List.getElem?_zip_eq_some.mpr ⟨hi1s, hq1⟩⟩
  have hperm := List.perm_insertionSort
    (fun a b : Int × Rat => b.2 ≤ a.2) (y_true.zip y_score)
  have hentries : ∀ v ∈ (List.insertionSort (fun a b : Int × Rat => b.2 ≤ a.2)
      (y_true.zip y_score)).map (fun s : Int × Rat => if s.1 = 1 then (1 : Int) else 0),
      0 ≤ v ∧ v ≤ 1 := by
    intro v hv
    obtain ⟨s, -, rfl⟩ := List.mem_map.mp hv
    by_cases hc : s.1 = 1 <;> simp [hc]
  have h1' : (1 : Int) ∈ (List.insertionSort (fun a b : Int × Rat => b.2 ≤ a.2)
      (y_true.zip y_score)).map (fun s : Int × Rat => if s.1 = 1 then (1 : Int) else 0) := by
    have hmem : ((1 : Int), q1) ∈ List.insertionSort
        (fun a b : Int × Rat => b.2 ≤ a.2) (y_true.zip y_score) :=
      hperm.mem_iff.mpr hz1
    have := List.mem_map_of_mem (fun s : Int × Rat =>
      if s.1 = 1 then (1 : Int) else 0) hmem
    simpa using this
  have h0' : (0 : Int) ∈ (List.insertionSort (fun a b : Int × Rat => b.2 ≤ a.2)
      (y_true.zip y_score)).map (fun s : Int × Rat => if s.1 = 1 then (1 : Int) else 0) := by
    have hmem : ((0 : Int), q0) ∈ List.insertionSort
        (fun a b : Int × Rat => b.2 ≤ a.2) (y_true.zip y_score) :=
      hperm.mem_iff.mpr hz0
    have := List.mem_map_of_mem (fun s : Int × Rat =>
      if s.1 = 1 then (1 : Int) else 0) hmem
    simpa using this
  have hlen_eq : ((List.insertionSort (fun a b : Int × Rat => b.2 ≤ a.2)
        (y_true.zip y_score)).map Prod.snd).length =
      ((List.insertionSort (fun a b : Int × Rat => b.2 ≤ a.2)
        (y_true.zip y_score)).map
        (fun s : Int × Rat => if s.1 = 1 then (1 : Int) else 0)).length := by
    simp
  obtain ⟨hlen2, hfpw, htpw, hfnn, htnn, htle, hflast, htlast, hfN, htN⟩ :=
    clf_counts_facts
      ((List.insertionSort (fun a b : Int × Rat => b.2 ≤ a.2)
        (y_true.zip y_score)).map (fun s : Int × Rat => if s.1 = 1 then (1 : Int) else 0))
      ((List.insertionSort (fun a b : Int × Rat => b.2 ≤ a.2)
        (y_true.zip y_score)).map Prod.snd)
      _ _ hlen_eq hentries h1' h0' rfl rfl
  have hcore := roc_core _ _ _ _ hlen2 hfpw htpw hfnn htnn htle hflast htlast hfN htN
  obtain ⟨hl1, hl2, hh1, hh2, hg1, hg2, a, hauc, ha0, ha1⟩ := hcore
  refine ⟨_, _, ?_, hh1, hh2, hg1, hg2, a, hauc, ha0, ha1⟩
  have hft : binary_clf_fps_tps (y_true.zip y_score) =
      ((((threshold_idxs ((List.insertionSort (fun a b : Int × Rat => b.2 ≤ a.2)
          (y_true.zip y_score)).map Prod.snd)).zip
        (select (cumsum ((List.insertionSort (fun a b : Int × Rat => b.2 ≤ a.2)
          (y_true.zip y_score)).map (fun s : Int × Rat => if s.1 = 1 then (1 : Int) else 0)))
          (threshold_idxs ((List.insertionSort (fun a b : Int × Rat => b.2 ≤ a.2)
            (y_true.zip y_score)).map Prod.snd)))).map
        (fun p => (p.1 : Int) + 1 - p.2)),
       (select (cumsum ((List.insertionSort (fun a b : Int × Rat => b.2 ≤ a.2)
          (y_true.zip y_score)).map (fun s : Int × Rat => if s.1 = 1 then (1 : Int) else 0)))
          (threshold_idxs ((List.insertionSort (fun a b : Int × Rat => b.2 ≤ a.2)
            (y_true.zip y_score)).map Prod.snd)))) := rfl
  unfold roc_curve
  rw [hft]
  dsimp only
  rw [hl1, hl2]
  dsimp only
  rw [if_pos ⟨hfN, htN⟩]

/-- Witness for C5 at the two-sample input labels [0, 1],
probabilities [1/4, 3/4]. -/
theorem claim_C5_roc_witness :
    (∀ p ∈ [(1 : Rat)/4, 3/4], 0 ≤ p ∧ p ≤ 1) ∧
    (∃ fpr tpr, roc_curve [0, 1] [(1 : Rat)/4, 3/4] = some (fpr, tpr) ∧
      fpr.head? = some 0 ∧ tpr.head? = some 0 ∧
      fpr.getLast? = some 1 ∧ tpr.getLast? = some 1 ∧
      ∃ a, auc fpr tpr = .ok a ∧ 0 ≤ a ∧ a ≤ 1) := by
  have hp : ∀ p ∈ [(1 : Rat)/4, 3/4], 0 ≤ p ∧ p ≤ 1 := by
    intro p hpm
    simp only [List.mem_cons, List.not_mem_nil, or_false] at hpm
    rcases hpm with rfl | rfl <;> norm_num
  exact ⟨hp, claim_C5_roc [0, 1] [(1 : Rat)/4, 3/4] rfl (by decide)
    (by decide) (by decide) hp⟩

end NovaMart
